import Mathlib

/-
Verification of the penalized hierarchical linkage clustering heuristic of the
CHAIR repository (the `clustering-linkage-jc.py` script family).

The embedding models, over exact rationals:
  * the overlap-penalty distance adjuster (`count_merged` and the penalty loop)
    of `src/utils/embeddings/clustering-linkage-jc.py`,
    `src/src/utils/embeddings/clustering_linkage-jc.py` and
    `src/next/utils/embeddings/clustering_linkage-jc.py`;
  * the size-imbalance adjuster of
    `src/analysis/embeddings/clustering-linkage-jc.py`, with numpy float64
    division-by-zero/NaN semantics modelled explicitly;
  * the top-down cluster-cut traversal (`pre_traverse` / `traverse`) shared by
    the variants, together with the result arrays `clusters` / `probs`;
  * the pure pair-table logic of `update_tables` in the interactive variant.

Python division of the scripts is modelled as exact rational division; integer
division by zero (Python `ZeroDivisionError`) is modelled by `Option`; numpy
float64 division by zero (which warns and yields inf, -inf or nan rather than
raising) is modelled by the type `NpF`.
-/

namespace CHAIR

/-- A scipy merge tree (`to_tree` output): a leaf carries the 0-based item id,
an internal node carries its linkage `dist` and exactly two children. -/
inductive MergeTree where
  | leaf (id : Nat)
  | node (dist : ℚ) (left : MergeTree) (right : MergeTree)
deriving DecidableEq, Repr

/-- Leaf ids of a merge tree in pre-order, left child first (the order in which
`traverse` reaches the leaves). -/
def leaves : MergeTree → List Nat
  | .leaf i => [i]
  | .node _ l r => leaves l ++ leaves r

/-!  ## Overlap-penalty Adjuster
`count_merged` and the penalty loop of `src/utils/embeddings/clustering-linkage-jc.py`
(lines 65-78); identical code appears in `src/src/utils/embeddings/clustering_linkage-jc.py`
(lines 253-266, with the penalty range named `g_penalty`). -/

/-- `count_merged(code1, code2)`: `len(examples[code1] - examples[code2]) /
len(examples[code1] | examples[code2])`.  Both lengths are Python `int`s, so a
zero denominator (both example sets empty) raises `ZeroDivisionError`,
modelled by `none`. -/
def countMerged (exs : Nat → Finset Nat) (i j : Nat) : Option ℚ :=
  if (exs i ∪ exs j).card = 0 then none
  else some (((exs i \ exs j).card : ℚ) / ((exs i ∪ exs j).card : ℚ))

/-- One entry of the penalty loop of `src/utils/embeddings/clustering-linkage-jc.py`
(lines 73-78): if `distances[i][j] > MinDistance` then
`penalty = count_merged(i, j); penalty = penalty * penalty;
distances[i][j] += penalty * Penalty` with `Penalty = MaxDistance - MinDistance`;
otherwise the entry is left unchanged.  `none` models the `ZeroDivisionError`
raised by `count_merged` on two empty example sets. -/
def adjustOverlap (exs : Nat → Finset Nat) (minDist pen : ℚ)
    (d : Nat → Nat → ℚ) (i j : Nat) : Option ℚ :=
  if minDist < d i j then
    match countMerged exs i j with
    | none => none
    | some delta => some (d i j + delta * delta * pen)
  else some (d i j)

/-- One entry of the penalty loop of `src/next/utils/embeddings/clustering_linkage-jc.py`
(lines 73-78).  There the loop body reads
`penalty = count_merged(i, j); penalty = penalty * penalty;
distances[i][j] += penalty * penalty`: the loop-local `penalty` has shadowed
the global penalty range (line 25), so the entry gains `delta^4` instead of
`delta^2 * (max_dist - min_dist)`. -/
def adjustOverlapNext (exs : Nat → Finset Nat) (minDist : ℚ)
    (d : Nat → Nat → ℚ) (i j : Nat) : Option ℚ :=
  if minDist < d i j then
    match countMerged exs i j with
    | none => none
    | some delta => some (d i j + (delta * delta) * (delta * delta))
  else some (d i j)

/-- Example sets of the concrete failing input for the overlap adjuster:
item 0 is backed by examples `{0, 1}`, item 1 by `{1, 2}`, all other items by
nothing. -/
def exOverlapping : Nat → Finset Nat := fun i =>
  if i = 0 then {0, 1} else if i = 1 then {1, 2} else ∅

/-- Example sets that are empty for every item. -/
def exEmpty : Nat → Finset Nat := fun _ => ∅

/-- A concrete raw distance matrix with `distance[0][1] = 1/2`. -/
def dHalf : Nat → Nat → ℚ := fun i j => if i = 0 ∧ j = 1 then 1/2 else 0

/-!  ## The condensed-distances / linkage frame (claim C4)
In all variants the script computes `condensed_distances = squareform(distances)`
BEFORE the penalty loop mutates `distances` in place, and then calls
`linkage(condensed_distances, ...)`.  `squareform` copies the upper triangle
into a fresh condensed array, so the in-place mutation cannot reach it. -/

/-- `squareform(distances)`: the condensed upper-triangle distance array,
row-major — entry `(i, j)` for `i < j < n`. -/
def squareformCondensed (n : Nat) (d : Nat → Nat → ℚ) : List ℚ :=
  (List.range n).flatMap fun i =>
    (List.range' (i + 1) (n - (i + 1))).map fun j => d i j

/-- One step of the in-place penalty loop: update entry `(i, j)` of the current
matrix (reading the current value, as the Python loop does), propagating the
`ZeroDivisionError` of `count_merged`. -/
def adjustStep (exs : Nat → Finset Nat) (minDist pen : ℚ)
    (acc : Option (Nat → Nat → ℚ)) (ij : Nat × Nat) : Option (Nat → Nat → ℚ) :=
  match acc with
  | none => none
  | some m =>
    match adjustOverlap exs minDist pen m ij.1 ij.2 with
    | none => none
    | some v => some (fun a b => if a = ij.1 ∧ b = ij.2 then v else m a b)

/-- The index pairs `(i, j)` visited by `for i in range(Items): for j in range(Items)`. -/
def allIdxPairs (n : Nat) : List (Nat × Nat) :=
  (List.range n).flatMap fun i => (List.range n).map fun j => (i, j)

/-- The whole in-place penalty loop of lines 73-78: the mutated matrix, or
`none` if some iteration raised. -/
def adjustAll (n : Nat) (exs : Nat → Finset Nat) (minDist pen : ℚ)
    (d : Nat → Nat → ℚ) : Option (Nat → Nat → ℚ) :=
  (allIdxPairs n).foldl (adjustStep exs minDist pen) (some d)

/-- The script in program order (`src/utils/embeddings/clustering-linkage-jc.py`
lines 54-82): first `condensed_distances = squareform(distances)` (line 55),
then the penalty loop mutates `distances` in place (lines 73-78), then
`linkages = linkage(condensed_distances, method=Linkage)` (line 81).  The value
returned is the argument handed to the linkage builder (`none` when the loop
raised before reaching the call). -/
def linkageArg (n : Nat) (exs : Nat → Finset Nat) (minDist pen : ℚ)
    (d : Nat → Nat → ℚ) : Option (List ℚ) :=
  let condensed := squareformCondensed n d
  match adjustAll n exs minDist pen d with
  | none => none
  | some _ => some condensed

/-!  ## Size-imbalance Adjuster
`src/analysis/embeddings/clustering-linkage-jc.py` lines 41-52.  The statistics
`avg_size = np.mean(sizes_for_calc)` and `std_size = np.std(sizes_for_calc)`
are numpy float64 values; the penalty expression
`min(1, max(0, (sizes[i] + sizes[j] - avg_size) / 3 / std_size))` divides by
`std_size` with no guard.  numpy float64 division by zero does not raise: it
warns and yields inf, -inf or nan.  `NpF` models the float64 special values
exactly (the scripts' values stay rational whenever finite). -/

/-- A numpy float64 value: finite rational, positive/negative infinity, or nan. -/
inductive NpF where
  | fin (q : ℚ)
  | pinf
  | ninf
  | nan
deriving DecidableEq, Repr

/-- IEEE-754 strict less-than on float64 values: nan compares false with
everything. -/
def NpF.lt : NpF → NpF → Bool
  | .fin a, .fin b => decide (a < b)
  | .fin _, .pinf => true
  | .ninf, .fin _ => true
  | .ninf, .pinf => true
  | _, _ => false

/-- Python `max(dflt, x)`: keep `dflt` unless `x > dflt` (false for nan). -/
def pymax (dflt x : NpF) : NpF := if NpF.lt dflt x then x else dflt

/-- Python `min(dflt, x)`: keep `dflt` unless `x < dflt` (false for nan). -/
def pymin (dflt x : NpF) : NpF := if NpF.lt x dflt then x else dflt

/-- `a - x` for a rational `a` (here `sizes[i] + sizes[j]`) and float64 `x`. -/
def NpF.subL (a : ℚ) : NpF → NpF
  | .fin b => .fin (a - b)
  | .pinf => .ninf
  | .ninf => .pinf
  | .nan => .nan

/-- Division of a float64 by a nonzero rational constant (here `/ 3`). -/
def NpF.divQ : NpF → ℚ → NpF
  | .fin a, q =>
    if q = 0 then (if 0 < a then .pinf else if a < 0 then .ninf else .nan)
    else .fin (a / q)
  | .pinf, q => if q < 0 then .ninf else .pinf
  | .ninf, q => if q < 0 then .pinf else .ninf
  | .nan, _ => .nan

/-- float64 division: a finite value divided by 0.0 warns and yields
inf, -inf or nan according to the sign of the numerator. -/
def NpF.div : NpF → NpF → NpF
  | .fin a, .fin b =>
    if b = 0 then (if 0 < a then .pinf else if a < 0 then .ninf else .nan)
    else .fin (a / b)
  | .fin _, .pinf => .fin 0
  | .fin _, .ninf => .fin 0
  | .pinf, .fin b => if b < 0 then .ninf else .pinf
  | .ninf, .fin b => if b < 0 then .pinf else .ninf
  | _, _ => .nan

/-- float64 multiplication (infinity times zero is nan). -/
def NpF.mul : NpF → NpF → NpF
  | .fin a, .fin b => .fin (a * b)
  | .fin a, .pinf => if 0 < a then .pinf else if a < 0 then .ninf else .nan
  | .fin a, .ninf => if 0 < a then .ninf else if a < 0 then .pinf else .nan
  | .pinf, .fin b => if 0 < b then .pinf else if b < 0 then .ninf else .nan
  | .ninf, .fin b => if 0 < b then .ninf else if b < 0 then .pinf else .nan
  | .pinf, .pinf => .pinf
  | .pinf, .ninf => .ninf
  | .ninf, .pinf => .ninf
  | .ninf, .ninf => .pinf
  | _, _ => .nan

/-- `d + x` for the rational matrix entry `d` (the `+=` of the loop). -/
def NpF.addL (d : ℚ) : NpF → NpF
  | .fin b => .fin (d + b)
  | .pinf => .pinf
  | .ninf => .ninf
  | .nan => .nan

/-- `sizes_for_calc = [size for size in sizes if size > 1]` (line 41). -/
def sizesForCalc (sizes : List ℚ) : List ℚ := sizes.filter (fun s => 1 < s)

/-- `np.mean`: nan on an empty population (numpy warns and returns nan). -/
def npMean (l : List ℚ) : NpF :=
  if l.length = 0 then .nan else .fin (l.sum / (l.length : ℚ))

/-- `np.std(l) ** 2`: the population variance, nan on an empty population.
Exactly rational, unlike the standard deviation itself. -/
def npVarQ (l : List ℚ) : NpF :=
  if l.length = 0 then .nan
  else
    match npMean l with
    | .fin m => .fin ((l.map (fun x => (x - m) ^ 2)).sum / (l.length : ℚ))
    | _ => .nan

/-- Characterizes `std = np.std(l)`: nan exactly on the empty population, and a
finite value is the nonnegative square root of the variance.  Stated
relationally because the square root of a rational variance need not be
rational; the populations the claims exercise all have rational std. -/
def npStdRel (l : List ℚ) : NpF → Prop
  | .fin q => 0 ≤ q ∧ npVarQ l = .fin (q * q)
  | .nan => l.length = 0
  | _ => False

/-- One entry of the size-imbalance penalty loop (lines 48-52):
`penalty = min(1, max(0, (sizes[i] + sizes[j] - avg_size) / 3 / std_size));
penalty = penalty * penalty; distances[i][j] += penalty * Penalty`,
with float64 semantics.  `avg` and `std` are `np.mean` / `np.std` of
`sizes_for_calc`; `std` is a parameter tied to the population by `npStdRel`. -/
def adjustSizeEntry (avg std : NpF) (pen : ℚ) (d : ℚ) (si sj : ℚ) : NpF :=
  let x := ((NpF.subL (si + sj) avg).divQ 3).div std
  let p := pymin (.fin 1) (pymax (.fin 0) x)
  NpF.addL d ((p.mul p).mul (.fin pen))

/-!  ## Interactive threshold calibration: the `update_tables` pair tables
`src/src/utils/embeddings/clustering_linkage-jc.py` lines 100-132.  The pure
content of each side-panel table: pairs `(i, j, distances[i][j])` for
`i < j < items` are sorted by `key=lambda x: -x[2]` (stable sort, DESCENDING
distance); the loop appends a pair to `max_pairs` when `max_dist > dist` and
to `min_pairs` when `min_dist > dist`, breaking once both lists have at least
10 entries; the tables show `max_pairs[:10]` / `min_pairs[:10]`.  A table row
holds `(labels[i], labels[j], dist)`; we keep the indices `i, j`. -/

/-- The pair list built by `for i in range(items): for j in range(i+1, items):
pairs.append((i, j, distances[i][j]))`. -/
def pyPairs (n : Nat) (d : Nat → Nat → ℚ) : List (Nat × Nat × ℚ) :=
  (List.range n).flatMap fun i =>
    (List.range' (i + 1) (n - (i + 1))).map fun j => (i, j, d i j)

/-- Stable insertion step for descending distance order: an element is placed
before the first element whose distance it weakly exceeds, so earlier elements
precede equal later ones, as Python's stable `sort` does. -/
def insertDesc (p : Nat × Nat × ℚ) : List (Nat × Nat × ℚ) → List (Nat × Nat × ℚ)
  | [] => [p]
  | q :: qs => if q.2.2 ≤ p.2.2 then p :: q :: qs else q :: insertDesc p qs

/-- `pairs.sort(key=lambda x: -x[2])`: stable sort by descending distance. -/
def sortDesc : List (Nat × Nat × ℚ) → List (Nat × Nat × ℚ)
  | [] => []
  | p :: ps => insertDesc p (sortDesc ps)

/-- Stable insertion step for ascending distance order. -/
def insertAsc (p : Nat × Nat × ℚ) : List (Nat × Nat × ℚ) → List (Nat × Nat × ℚ)
  | [] => [p]
  | q :: qs => if p.2.2 ≤ q.2.2 then p :: q :: qs else q :: insertAsc p qs

/-- Stable sort by ascending distance (used only by the spec-side reading). -/
def sortAsc : List (Nat × Nat × ℚ) → List (Nat × Nat × ℚ)
  | [] => []
  | p :: ps => insertAsc p (sortAsc ps)

/-- The collection loop of `update_tables` (lines 116-122): walk the
descending-sorted pairs, append to the max/min lists the pairs strictly under
the respective threshold, and break as soon as both lists have 10 entries. -/
def collectPairs (maxd mind : ℚ) :
    List (Nat × Nat × ℚ) → List (Nat × Nat × ℚ) → List (Nat × Nat × ℚ) →
    List (Nat × Nat × ℚ) × List (Nat × Nat × ℚ)
  | [], mx, mn => (mx, mn)
  | p :: rest, mx, mn =>
    let mx' := if p.2.2 < maxd then mx ++ [p] else mx
    let mn' := if p.2.2 < mind then mn ++ [p] else mn
    if 10 ≤ mx'.length ∧ 10 ≤ mn'.length then (mx', mn')
    else collectPairs maxd mind rest mx' mn'

/-- The two tables rendered by `update_tables`:
`(max_pairs[:10], min_pairs[:10])` (the placeholder row shown when a table is
empty is presentation only and not modelled). -/
def updateTablesData (n : Nat) (d : Nat → Nat → ℚ) (maxd mind : ℚ) :
    List (Nat × Nat × ℚ) × List (Nat × Nat × ℚ) :=
  let res := collectPairs maxd mind (sortDesc (pyPairs n d)) [] []
  (res.1.take 10, res.2.take 10)

/-- The spec's words for a side-panel table: the closest label pairs whose
distance falls strictly under the threshold — the top 10 such pairs ordered by
increasing distance. -/
def specClosestPairs (n : Nat) (d : Nat → Nat → ℚ) (thr : ℚ) :
    List (Nat × Nat × ℚ) :=
  ((sortAsc (pyPairs n d)).filter (fun p => p.2.2 < thr)).take 10

/-- The concrete 3-item distance matrix used against `update_tables`:
`d(0,1) = 1/10`, `d(0,2) = 1/5`, `d(1,2) = 3/10`. -/
def dThree : Nat → Nat → ℚ := fun i j =>
  if i = 0 ∧ j = 1 then 1/10 else if i = 0 ∧ j = 2 then 1/5
  else if i = 1 ∧ j = 2 then 3/10 else 0

/-!  ## Cluster-Cut Selector
The `pre_traverse` / `traverse` pair of
`src/utils/embeddings/clustering-linkage-jc.py` (lines 87-138; the same code
appears in `src/src` and `src/next`).  The traversal carries the scalar
parameters `MaxDistance`, `MinDistance`, `avg_size` and
`penalty_coff = 3 * avg_size - avg_size`; for the script-produced values
`penalty_coff > 0`, so rational division models the float division exactly. -/

/-- The scalar context of one invocation: the two thresholds, the example-set
statistics (`avg_size`, `penalty_coff`, lines 58-61), and the per-item example
sets. -/
structure Cfg where
  maxDist : ℚ
  minDist : ℚ
  avgSize : ℚ
  penaltyCoff : ℚ
  exs : Nat → Finset Nat

/-- `Penalty = MaxDistance - MinDistance` (line 25). -/
def Cfg.penaltyRange (c : Cfg) : ℚ := c.maxDist - c.minDist

/-- `pre_traverse` (lines 87-97): the union of the example sets of all leaves
under a node, cached per node id in the script; recomputed structurally here
(the cached and recomputed values coincide). -/
def treeExamples (c : Cfg) : MergeTree → Finset Nat
  | .leaf i => c.exs i
  | .node _ l r => treeExamples c l ∪ treeExamples c r

/-- Lines 117-118 of `traverse`:
`penalty = min(1, max(0, (len(tree_examples[node.id]) - avg_size) / penalty_coff));
penalty = penalty * penalty`. -/
def nodePenalty (c : Cfg) (t : MergeTree) : ℚ :=
  let p := min 1 (max 0 ((((treeExamples c t).card : ℚ) - c.avgSize) / c.penaltyCoff))
  p * p

/-- Line 119: `criteria = max(MaxDistance - penalty * Penalty, MinDistance)`. -/
def criteria (c : Cfg) (t : MergeTree) : ℚ :=
  max (c.maxDist - nodePenalty c t * c.penaltyRange) c.minDist

/-- `traverse(node, depth, cluster, prob, color)` (lines 106-135), carrying the
global `cluster_index` counter explicitly and returning the per-leaf
assignments `(leaf id, cluster, prob)` in visit order (pre-order, left child
first).  A leaf records the carried state; an internal node with
`cluster == -1 and node.dist <= criteria` allocates the fresh id
`cluster_index` (incrementing the counter) and sets
`prob = max(1 - node.dist, 0)` before recursing into both children.  The
`depth` and `color` arguments of the script only feed the dendrogram plot and
are omitted. -/
def traverse (c : Cfg) : MergeTree → Nat → Int → ℚ → Nat × List (Nat × Int × ℚ)
  | .leaf i, idx, cl, pr => (idx, [(i, cl, pr)])
  | .node d l r, idx, cl, pr =>
    if cl = -1 ∧ d ≤ criteria c (.node d l r) then
      let res1 := traverse c l (idx + 1) (idx : Int) (max (1 - d) 0)
      let res2 := traverse c r res1.1 (idx : Int) (max (1 - d) 0)
      (res2.1, res1.2 ++ res2.2)
    else
      let res1 := traverse c l idx cl pr
      let res2 := traverse c r res1.1 cl pr
      (res2.1, res1.2 ++ res2.2)

/-- `clusters = np.full(Items, -1)` (line 101). -/
def initClusters (n : Nat) : List Int := List.replicate n (-1)

/-- `probs = np.full(Items, 1.0)` (line 102). -/
def initProbs (n : Nat) : List ℚ := List.replicate n 1

/-- Replay the leaf assignments into the two output arrays
(`clusters[node.id] = cluster; probs[node.id] = prob`, lines 112-113). -/
def applyWrites (ws : List (Nat × Int × ℚ)) (cs : List Int) (ps : List ℚ) :
    List Int × List ℚ :=
  match ws with
  | [] => (cs, ps)
  | (i, cl, pr) :: rest => applyWrites rest (cs.set i cl) (ps.set i pr)

/-- The whole run for one invocation: `traverse(root, 0)` starting from
`cluster = -1, prob = 1`, then the populated `clusters` / `probs` arrays that
line 172 serializes. -/
def runClustering (c : Cfg) (t : MergeTree) (n : Nat) : List Int × List ℚ :=
  applyWrites (traverse c t 0 (-1) 1).2 (initClusters n) (initProbs n)

/-- `s` occurs as a subtree of `t` (reflexively). -/
inductive SubtreeOf : MergeTree → MergeTree → Prop where
  | refl (t : MergeTree) : SubtreeOf t t
  | inLeft {s l : MergeTree} (d : ℚ) (r : MergeTree) :
      SubtreeOf s l → SubtreeOf s (.node d l r)
  | inRight {s r : MergeTree} (d : ℚ) (l : MergeTree) :
      SubtreeOf s r → SubtreeOf s (.node d l r)

/-- Leaf `i` of `t` is reachable from the root without meeting any node whose
merge distance satisfies the cut criteria; such a leaf is exactly one the
traversal leaves at `clusterId = -1` (the first node on the path with
`dist <= criteria` cuts, so a leaf is unclustered iff no such node exists). -/
def unclusteredLeaf (c : Cfg) : MergeTree → Nat → Bool
  | .leaf j, i => j == i
  | .node d l r, i =>
    !(decide (d ≤ criteria c (.node d l r)))
      && (unclusteredLeaf c l i || unclusteredLeaf c r i)

/-- First-occurrence deduplication: keeps the first occurrence of each value,
in order of first appearance. -/
def dedupFirst : List Int → List Int
  | [] => []
  | x :: xs => x :: dedupFirst (xs.filter (fun y => y ≠ x))
termination_by l => l.length
decreasing_by
  simp only [List.length_cons]
  exact Nat.lt_succ_of_le (List.length_filter_le _ _)

/-- The cluster ids of the assignment sequence, ignoring `-1`, in order of
first discovery. -/
def discoveredIds (ws : List (Nat × Int × ℚ)) : List Int :=
  dedupFirst ((ws.map (fun w => w.2.1)).filter (fun x => x ≠ -1))

/-- The cluster id the assignment sequence records for leaf `i` (`-1` when the
sequence never writes `i`); used to relate the assignment sequence to the
output arrays. -/
def lookupCl (ws : List (Nat × Int × ℚ)) (i : Nat) : Int :=
  match ws.find? (fun w => w.1 == i) with
  | some w => w.2.1
  | none => -1

/-- A concrete invocation context: thresholds `13/20` / `2/5`, example-set
statistics `avg_size = 2`, `penalty_coff = 4`, and items 0 and 1 backed by the
disjoint example sets `{0, 1}` and `{2, 3}`. -/
def cfgW : Cfg :=
  { maxDist := 13/20, minDist := 2/5, avgSize := 2, penaltyCoff := 4,
    exs := fun i => if i = 0 then {0, 1} else {2, 3} }

/-- A two-leaf merge tree whose root merged at distance `1/10`. -/
def treeW : MergeTree := .node (1/10) (.leaf 0) (.leaf 1)

/-- The same context with the thresholds swapped, violating
`minDistance <= maxDistance`: `max_dist = 3/10 < 1/2 = min_dist`. -/
def cfgBad : Cfg :=
  { maxDist := 3/10, minDist := 1/2, avgSize := 2, penaltyCoff := 4,
    exs := fun i => if i = 0 then {0, 1} else {2, 3} }

/-- A two-leaf merge tree whose root merged at distance `1/5`. -/
def treeBad : MergeTree := .node (1/5) (.leaf 0) (.leaf 1)

end CHAIR

namespace CHAIR

/-- C1: in `src/utils` the adjusted entry for the pair `(0, 1)` with example
sets `{0,1}` / `{1,2}`, raw distance `1/2 > minDistance = 2/5` and penalty
range `1/4` is `1/2 + (1/3)^2 * 1/4 = 1/2 + 1/36`, exactly as the claim
states; the near-duplicate loop in `src/next` instead adds
`((1/3)^2)^2 = 1/81` because its `penalty * penalty` shadowed the penalty
range, so there the claimed equality fails. -/
theorem overlap_penalty_formula_divergence :
    adjustOverlap exOverlapping (2/5) (1/4) dHalf 0 1 = some (1/2 + 1/36)
    ∧ adjustOverlapNext exOverlapping (2/5) dHalf 0 1 = some (1/2 + 1/81)
    ∧ (1/2 + 1/36 : ℚ) ≠ 1/2 + 1/81 := by
  refine ⟨?_, ?_, by norm_num⟩ <;> with_unfolding_all decide

/-- C6: with both example sets empty and raw distance above `minDistance`,
`count_merged` divides the Python int `0` by the Python int `0`, raising
`ZeroDivisionError` (modelled by `none`), and the penalty loop entry fails
instead of leaving the distance unchanged. -/
theorem count_merged_empty_sets_fails :
    countMerged exEmpty 0 1 = none
    ∧ adjustOverlap exEmpty (2/5) (1/4) dHalf 0 1 = none := by
  constructor <;> with_unfolding_all decide

/-- C4: for every input, the argument handed to the hierarchical linkage
builder is the condensed form of the ORIGINAL distance matrix, taken before
the overlap-penalty loop mutates the square matrix in place — either the loop
raises and linkage is never called, or linkage receives exactly
`squareform` of the unpenalized distances. -/
theorem linkage_input_unpenalized (n : Nat) (exs : Nat → Finset Nat)
    (minDist pen : ℚ) (d : Nat → Nat → ℚ) :
    linkageArg n exs minDist pen d = none
    ∨ linkageArg n exs minDist pen d = some (squareformCondensed n d) := by
  unfold linkageArg
  cases adjustAll n exs minDist pen d with
  | none => exact Or.inl rfl
  | some m => exact Or.inr rfl

/-- C5 counterexample: with sizes `[2, 1]` the qualifying population is the
singleton `[2]`, so `avg_size = 2` and `std_size = 0`; for the pair `(0, 1)`
(`sizes[0] + sizes[1] - avg_size = 1 > 0`) the division by `std_size` yields
`+inf`, the clamp gives the FULL penalty 1 — not 0 — and the entry with raw
distance `1/2` and penalty range `3/10` becomes `4/5`, not `1/2`. -/
theorem size_penalty_zero_std_counterexample :
    sizesForCalc [2, 1] = [2]
    ∧ npStdRel (sizesForCalc [2, 1]) (.fin 0)
    ∧ adjustSizeEntry (npMean (sizesForCalc [2, 1])) (.fin 0) (3/10) (1/2) 2 1
        = .fin (4/5)
    ∧ NpF.fin (4/5) ≠ .fin (1/2) := by
  refine ⟨by with_unfolding_all decide, ⟨le_refl 0, by with_unfolding_all decide⟩,
    by with_unfolding_all decide, by with_unfolding_all decide⟩

/-- C5 amended: when the qualifying population is a singleton `[s]` (the case
in which `std_size = 0`), the adjustment completes without failure — numpy
float64 division by zero warns rather than raises — but the penalty is NOT
treated as 0 for every pair: a pair with `sizes[i] + sizes[j] > averageSize`
receives the full penalty `1 * penaltyRange`, and only pairs with
`sizes[i] + sizes[j] <= averageSize` receive 0. -/
theorem size_penalty_singleton_population (sizes : List ℚ) (s : ℚ) (std : NpF)
    (pen dq si sj : ℚ) (h1 : sizesForCalc sizes = [s])
    (h2 : npStdRel (sizesForCalc sizes) std) :
    adjustSizeEntry (npMean (sizesForCalc sizes)) std pen dq si sj
      = .fin (if s < si + sj then dq + pen else dq) := by
  rw [h1] at h2 ⊢
  have hmean : npMean [s] = .fin s := by
    simp [npMean]
  have hvar : npVarQ [s] = .fin 0 := by
    simp [npVarQ, npMean]
  have hstd : std = .fin 0 := by
    match std with
    | .fin q =>
      obtain ⟨_, hq⟩ := h2
      rw [hvar] at hq
      have hq2 : (0 : ℚ) = q * q := by injection hq
      have : q = 0 := by
        have := mul_self_eq_zero.mp hq2.symm
        exact this
      rw [this]
    | .pinf => exact absurd h2 (by simp [npStdRel])
    | .ninf => exact absurd h2 (by simp [npStdRel])
    | .nan => simp [npStdRel] at h2
  rw [hmean, hstd]
  have e1 : NpF.subL (si + sj) (.fin s) = .fin (si + sj - s) := rfl
  have e2 : (NpF.fin (si + sj - s)).divQ 3 = .fin ((si + sj - s) / 3) := by
    simp [NpF.divQ]
  rcases lt_trichotomy s (si + sj) with h | h | h
  · have h3 : 0 < (si + sj - s) / 3 := div_pos (sub_pos.mpr h) (by norm_num)
    have e3 : (NpF.fin ((si + sj - s) / 3)).div (.fin 0) = .pinf := by
      simp [NpF.div, h3]
    rw [if_pos h]
    simp only [adjustSizeEntry, e1, e2, e3]
    show NpF.addL dq (((pymin (.fin 1) (pymax (.fin 0) .pinf)).mul
      (pymin (.fin 1) (pymax (.fin 0) .pinf))).mul (.fin pen)) = .fin (dq + pen)
    have e4 : pymin (.fin 1) (pymax (.fin 0) .pinf) = .fin 1 := rfl
    rw [e4]
    norm_num [NpF.mul, NpF.addL]
  · have e3 : (NpF.fin ((si + sj - s) / 3)).div (.fin 0) = .nan := by
      rw [← h]
      norm_num [NpF.div]
    rw [if_neg (by rw [← h]; exact lt_irrefl s)]
    simp only [adjustSizeEntry, e1, e2, e3]
    show NpF.addL dq (((pymin (.fin 1) (pymax (.fin 0) .nan)).mul
      (pymin (.fin 1) (pymax (.fin 0) .nan))).mul (.fin pen)) = .fin dq
    have e4 : pymin (.fin 1) (pymax (.fin 0) .nan) = .fin 0 := rfl
    rw [e4]
    norm_num [NpF.mul, NpF.addL]
  · have h3 : (si + sj - s) / 3 < 0 := div_neg_of_neg_of_pos (by linarith) (by norm_num)
    have e3 : (NpF.fin ((si + sj - s) / 3)).div (.fin 0) = .ninf := by
      simp [NpF.div, h3, not_lt_of_gt h3, asymm h3]
    rw [if_neg (by exact not_lt_of_gt h)]
    simp only [adjustSizeEntry, e1, e2, e3]
    show NpF.addL dq (((pymin (.fin 1) (pymax (.fin 0) .ninf)).mul
      (pymin (.fin 1) (pymax (.fin 0) .ninf))).mul (.fin pen)) = .fin dq
    have e4 : pymin (.fin 1) (pymax (.fin 0) .ninf) = .fin 0 := rfl
    rw [e4]
    norm_num [NpF.mul, NpF.addL]

/-- Witness for the amended C5 theorem at the concrete population `[2, 1]`. -/
theorem size_penalty_singleton_population_witness :
    adjustSizeEntry (npMean (sizesForCalc [2, 1])) (.fin 0) (3/10) (1/2) 2 1
      = .fin (if (2 : ℚ) < 2 + 1 then 1/2 + 3/10 else 1/2) :=
  size_penalty_singleton_population [2, 1] 2 (.fin 0) (3/10) (1/2) 2 1
    (by with_unfolding_all decide)
    ⟨le_refl 0, by with_unfolding_all decide⟩

/-- C9 counterexample: with three items at pairwise distances
`1/10, 1/5, 3/10`, all under the max threshold `2/5`, the max-threshold table
produced by `update_tables` lists the pairs in DECREASING distance order
(`3/10, 1/5, 1/10`), while the spec's table — top 10 by increasing distance —
lists them in the opposite order; the two disagree. -/
theorem update_tables_order_counterexample :
    (updateTablesData 3 dThree (2/5) (1/4)).1
        = [(1, 2, 3/10), (0, 2, 1/5), (0, 1, 1/10)]
    ∧ specClosestPairs 3 dThree (2/5)
        = [(0, 1, 1/10), (0, 2, 1/5), (1, 2, 3/10)]
    ∧ (updateTablesData 3 dThree (2/5) (1/4)).1 ≠ specClosestPairs 3 dThree (2/5) := by
  refine ⟨?_, ?_, ?_⟩ <;> with_unfolding_all decide

/-- The collection loop, truncated to 10, yields the first 10 qualifying pairs
of its input (in input order), regardless of the early break. -/
theorem collectPairs_take (maxd mind : ℚ) :
    ∀ (l mx mn : List (Nat × Nat × ℚ)),
      ((collectPairs maxd mind l mx mn).1.take 10
          = (mx ++ l.filter (fun p => p.2.2 < maxd)).take 10)
      ∧ ((collectPairs maxd mind l mx mn).2.take 10
          = (mn ++ l.filter (fun p => p.2.2 < mind)).take 10) := by
  intro l
  induction l with
  | nil => intro mx mn; simp [collectPairs]
  | cons p rest ih =>
    intro mx mn
    rw [collectPairs]
    set mx' := if p.2.2 < maxd then mx ++ [p] else mx with hmxd
    set mn' := if p.2.2 < mind then mn ++ [p] else mn with hmnd
    have hmx : mx' ++ rest.filter (fun q => q.2.2 < maxd)
        = mx ++ (p :: rest).filter (fun q => q.2.2 < maxd) := by
      rw [hmxd]; by_cases h : p.2.2 < maxd <;> simp [List.filter_cons, h]
    have hmn : mn' ++ rest.filter (fun q => q.2.2 < mind)
        = mn ++ (p :: rest).filter (fun q => q.2.2 < mind) := by
      rw [hmnd]; by_cases h : p.2.2 < mind <;> simp [List.filter_cons, h]
    split
    · rename_i hbrk
      exact ⟨by rw [← hmx, List.take_append_of_le_length hbrk.1],
             by rw [← hmn, List.take_append_of_le_length hbrk.2]⟩
    · exact ⟨by rw [(ih mx' mn').1, ← hmx], by rw [(ih mx' mn').2, ← hmn]⟩

/-- C9 amended: after every threshold update, each side-panel table lists the
up-to-10 pairs with distance strictly under its threshold that are CLOSEST TO
the threshold — the 10 largest qualifying distances — in decreasing distance
order (first 10 of the descending-sorted qualifying pairs), not the closest
pairs in increasing order. -/
theorem update_tables_descending (n : Nat) (d : Nat → Nat → ℚ) (maxd mind : ℚ) :
    updateTablesData n d maxd mind
      = (((sortDesc (pyPairs n d)).filter (fun p => p.2.2 < maxd)).take 10,
         ((sortDesc (pyPairs n d)).filter (fun p => p.2.2 < mind)).take 10) := by
  unfold updateTablesData
  have h := collectPairs_take maxd mind (sortDesc (pyPairs n d)) [] []
  rw [Prod.ext_iff]
  refine ⟨?_, ?_⟩
  · simpa using h.1
  · simpa using h.2

/-!  ### Structural lemmas about the cluster-cut traversal -/

/-- Every merge tree has at least one leaf. -/
theorem leaves_length_pos (t : MergeTree) : 0 < (leaves t).length := by
  induction t with
  | leaf i => simp [leaves]
  | node d l r ihl ihr => simp only [leaves, List.length_append]; omega

/-- A subtree entered while already inside a cluster propagates the carried
`(cluster, prob)` pair unchanged to every leaf and allocates no new id. -/
theorem traverse_inCluster (c : Cfg) (t : MergeTree) :
    ∀ (idx : Nat) (cl : Int) (pr : ℚ), cl ≠ -1 →
      traverse c t idx cl pr = (idx, (leaves t).map fun i => (i, cl, pr)) := by
  induction t with
  | leaf i => intro idx cl pr _; rfl
  | node d l r ihl ihr =>
    intro idx cl pr h
    simp only [traverse]
    rw [if_neg (fun hc => h hc.1), ihl idx cl pr h]
    simp only []
    rw [ihr idx cl pr h]
    simp [leaves]

/-- An internal node reached unclustered whose merge distance meets the
criteria cuts: it allocates the fresh id `idx`, fixes
`prob = max(1 - dist, 0)`, hands both to every leaf of its subtree unchanged,
and the counter advances exactly once. -/
theorem traverse_cut (c : Cfg) (d : ℚ) (l r : MergeTree) (idx : Nat) (pr : ℚ)
    (h : d ≤ criteria c (.node d l r)) :
    traverse c (.node d l r) idx (-1) pr
      = (idx + 1, (leaves (.node d l r)).map fun i => (i, (idx : Int), max (1 - d) 0)) := by
  simp only [traverse, eq_self_iff_true, true_and]
  rw [if_pos h]
  rw [traverse_inCluster c l (idx + 1) (idx : Int) (max (1 - d) 0) (by omega)]
  simp only []
  rw [traverse_inCluster c r (idx + 1) (idx : Int) (max (1 - d) 0) (by omega)]
  simp [leaves]

/-- The cluster counter never decreases. -/
theorem traverse_mono (c : Cfg) (t : MergeTree) :
    ∀ (idx : Nat) (cl : Int) (pr : ℚ), idx ≤ (traverse c t idx cl pr).1 := by
  induction t with
  | leaf i => intro idx cl pr; exact le_refl idx
  | node d l r ihl ihr =>
    intro idx cl pr
    simp only [traverse]
    split
    · exact le_trans (Nat.le_succ idx) (le_trans (ihl _ _ _) (ihr _ _ _))
    · exact le_trans (ihl _ _ _) (ihr _ _ _)

/-- The assignment sequence covers exactly the leaves, in pre-order. -/
theorem traverse_fst_map (c : Cfg) (t : MergeTree) :
    ∀ (idx : Nat) (cl : Int) (pr : ℚ),
      (traverse c t idx cl pr).2.map (fun w => w.1) = leaves t := by
  induction t with
  | leaf i => intro idx cl pr; rfl
  | node d l r ihl ihr =>
    intro idx cl pr
    simp only [traverse, leaves]
    split <;> simp [List.map_append, ihl, ihr]

/-- Every assigned cluster id is either the carried one or one freshly
allocated during this subtree's traversal (in `[idx, final counter)`). -/
theorem traverse_id_mem (c : Cfg) (t : MergeTree) :
    ∀ (idx : Nat) (cl : Int) (pr : ℚ), ∀ w ∈ (traverse c t idx cl pr).2,
      w.2.1 = cl
      ∨ ((idx : Int) ≤ w.2.1 ∧ w.2.1 < ((traverse c t idx cl pr).1 : Int)) := by
  induction t with
  | leaf i =>
    intro idx cl pr w hw
    simp only [traverse, List.mem_singleton] at hw
    subst hw
    exact Or.inl rfl
  | node d l r ihl ihr =>
    intro idx cl pr w hw
    simp only [traverse] at hw ⊢
    by_cases hcond : cl = -1 ∧ d ≤ criteria c (.node d l r)
    · rw [if_pos hcond] at hw ⊢
      dsimp only at hw ⊢
      have hm1 := traverse_mono c l (idx + 1) (idx : Int) (max (1 - d) 0)
      have hm2 := traverse_mono c r
        (traverse c l (idx + 1) (idx : Int) (max (1 - d) 0)).1 (idx : Int) (max (1 - d) 0)
      rcases List.mem_append.mp hw with h1 | h1
      · rcases ihl (idx + 1) (idx : Int) (max (1 - d) 0) w h1 with h | h
        · right; omega
        · right; omega
      · rcases ihr (traverse c l (idx + 1) (idx : Int) (max (1 - d) 0)).1 (idx : Int)
            (max (1 - d) 0) w h1 with h | h
        · right; omega
        · right; omega
    · rw [if_neg hcond] at hw ⊢
      dsimp only at hw ⊢
      have hm1 := traverse_mono c l idx cl pr
      have hm2 := traverse_mono c r (traverse c l idx cl pr).1 cl pr
      rcases List.mem_append.mp hw with h1 | h1
      · rcases ihl idx cl pr w h1 with h | h
        · exact Or.inl h
        · right; omega
      · rcases ihr (traverse c l idx cl pr).1 cl pr w h1 with h | h
        · exact Or.inl h
        · right; omega

/-- The clamped penalty ratio is a square, hence nonnegative, and at most 1. -/
theorem nodePenalty_bounds (c : Cfg) (t : MergeTree) :
    0 ≤ nodePenalty c t ∧ nodePenalty c t ≤ 1 := by
  unfold nodePenalty
  constructor
  · exact mul_self_nonneg _
  · have h0 : 0 ≤ min 1 (max 0 ((((treeExamples c t).card : ℚ) - c.avgSize) / c.penaltyCoff)) :=
      le_min (by norm_num) (le_max_left 0 _)
    have h1 : min 1 (max 0 ((((treeExamples c t).card : ℚ) - c.avgSize) / c.penaltyCoff)) ≤ 1 :=
      min_le_left 1 _
    nlinarith

/-- Auxiliary form of the floor/ceiling bound on the per-node cutting
threshold. -/
theorem criteria_bounds (c : Cfg) (h : c.minDist ≤ c.maxDist) (t : MergeTree) :
    c.minDist ≤ criteria c t ∧ criteria c t ≤ c.maxDist := by
  refine ⟨le_max_right _ _, max_le ?_ h⟩
  have hp := (nodePenalty_bounds c t).1
  have hr : 0 ≤ c.penaltyRange := by
    unfold Cfg.penaltyRange; linarith
  nlinarith

/-- Every internal node with merge distance strictly below `minDistance`,
wherever it sits in the tree and whatever state the traversal reaches it in,
leaves all of its leaves with a cluster id different from `-1`. -/
theorem tight_node_clustered (c : Cfg) (h : c.minDist ≤ c.maxDist)
    (d : ℚ) (l r t : MergeTree) (hsub : SubtreeOf (.node d l r) t)
    (hd : d < c.minDist) :
    ∀ (idx : Nat) (cl : Int) (pr : ℚ), ∀ i ∈ leaves (.node d l r),
      ∃ cl2 pr2, (i, cl2, pr2) ∈ (traverse c t idx cl pr).2 ∧ cl2 ≠ -1 := by
  induction hsub with
  | refl =>
    intro idx cl pr i hi
    by_cases hcl : cl = -1
    · subst hcl
      have hcut : d ≤ criteria c (.node d l r) :=
        le_of_lt (lt_of_lt_of_le hd (criteria_bounds c h (.node d l r)).1)
      rw [traverse_cut c d l r idx pr hcut]
      exact ⟨(idx : Int), max (1 - d) 0,
        List.mem_map.mpr ⟨i, hi, rfl⟩, by omega⟩
    · rw [traverse_inCluster c (.node d l r) idx cl pr hcl]
      exact ⟨cl, pr, List.mem_map.mpr ⟨i, hi, rfl⟩, hcl⟩
  | inLeft d2 r2 hsub ih =>
    intro idx cl pr i hi
    rename_i l2
    simp only [traverse]
    by_cases hcond : cl = -1 ∧ d2 ≤ criteria c (.node d2 l2 r2)
    · rw [if_pos hcond]
      dsimp only
      obtain ⟨cl2, pr2, hmem, hne⟩ := ih (idx + 1) (idx : Int) (max (1 - d2) 0) i hi
      exact ⟨cl2, pr2, List.mem_append_left _ hmem, hne⟩
    · rw [if_neg hcond]
      dsimp only
      obtain ⟨cl2, pr2, hmem, hne⟩ := ih idx cl pr i hi
      exact ⟨cl2, pr2, List.mem_append_left _ hmem, hne⟩
  | inRight d2 l2 hsub ih =>
    intro idx cl pr i hi
    rename_i r2
    simp only [traverse]
    by_cases hcond : cl = -1 ∧ d2 ≤ criteria c (.node d2 l2 r2)
    · rw [if_pos hcond]
      dsimp only
      obtain ⟨cl2, pr2, hmem, hne⟩ :=
        ih (traverse c l2 (idx + 1) (idx : Int) (max (1 - d2) 0)).1 (idx : Int)
          (max (1 - d2) 0) i hi
      exact ⟨cl2, pr2, List.mem_append_right _ hmem, hne⟩
    · rw [if_neg hcond]
      dsimp only
      obtain ⟨cl2, pr2, hmem, hne⟩ := ih (traverse c l2 idx cl pr).1 cl pr i hi
      exact ⟨cl2, pr2, List.mem_append_right _ hmem, hne⟩

/-- C2: assuming `minDistance <= maxDistance`, the cutting threshold
`criteria = max(maxDistance - penalty * (maxDistance - minDistance), minDistance)`
of every node lies in the closed interval `[minDistance, maxDistance]` (so no
node is ever cut at a criteria value above `maxDistance`), and every internal
node whose merge distance is strictly below `minDistance` ends up inside a
cluster: each of its leaves receives a cluster id different from `-1`. -/
theorem criteria_interval_and_floor (c : Cfg) (h : c.minDist ≤ c.maxDist) :
    (∀ t : MergeTree, c.minDist ≤ criteria c t ∧ criteria c t ≤ c.maxDist)
    ∧ ∀ (d : ℚ) (l r t : MergeTree), SubtreeOf (.node d l r) t → d < c.minDist →
        ∀ i ∈ leaves (.node d l r),
          ∃ cl pr, (i, cl, pr) ∈ (traverse c t 0 (-1) 1).2 ∧ cl ≠ -1 :=
  ⟨criteria_bounds c h,
   fun d l r t hsub hd i hi => tight_node_clustered c h d l r t hsub hd 0 (-1) 1 i hi⟩

/-- Witness for C2 at the concrete context `cfgW` and tree `treeW` (root
merge distance `1/10 <` `minDistance = 2/5`): leaf 0 is clustered. -/
theorem criteria_interval_and_floor_witness :
    ∃ cl pr, (0, cl, pr) ∈ (traverse cfgW treeW 0 (-1) 1).2 ∧ cl ≠ -1 :=
  (criteria_interval_and_floor cfgW (by with_unfolding_all decide)).2
    (1/10) (.leaf 0) (.leaf 1) treeW (SubtreeOf.refl treeW)
    (by with_unfolding_all decide) 0 (by with_unfolding_all decide)

/-- C3: when the traversal reaches an internal node unclustered
(`cluster == -1`) and `node.dist <= criteria` (equality counts as a cut), the
node allocates the fresh sequential id `idx`, fixes
`probability = max(1 - mergeDistance, 0)`, and both are propagated unchanged
to every leaf of its subtree; the counter leaves the subtree at `idx + 1`, so
no descendant ever starts another cluster. -/
theorem cut_fixes_cluster_and_probability (c : Cfg) (d : ℚ) (l r : MergeTree)
    (idx : Nat) (pr : ℚ) (h : d ≤ criteria c (.node d l r)) :
    traverse c (.node d l r) idx (-1) pr
      = (idx + 1,
         (leaves (.node d l r)).map fun i => (i, (idx : Int), max (1 - d) 0)) :=
  traverse_cut c d l r idx pr h

/-- Witness for C3: the root of `treeW` cuts under `cfgW` and both leaves get
cluster 0 with probability `max(1 - 1/10, 0)`. -/
theorem cut_fixes_cluster_and_probability_witness :
    traverse cfgW treeW 0 (-1) 1
      = (1, (leaves treeW).map fun i => (i, (0 : Int), max (1 - 1/10) 0)) :=
  cut_fixes_cluster_and_probability cfgW (1/10) (.leaf 0) (.leaf 1) 0 1
    (by with_unfolding_all decide)

/-- The output arrays always have exactly one entry per item. -/
theorem applyWrites_length :
    ∀ (ws : List (Nat × Int × ℚ)) (cs : List Int) (ps : List ℚ),
      (applyWrites ws cs ps).1.length = cs.length
      ∧ (applyWrites ws cs ps).2.length = ps.length := by
  intro ws
  induction ws with
  | nil => intro cs ps; exact ⟨rfl, rfl⟩
  | cons w rest ih =>
    intro cs ps
    obtain ⟨i, cl, pr⟩ := w
    simp only [applyWrites]
    exact ⟨by rw [(ih _ _).1, List.length_set], by rw [(ih _ _).2, List.length_set]⟩

/-- C7 counterexample: with `minDistance = 1/2 > 3/10 = maxDistance` the
invocation does not abort: the script runs to completion and emits a full
output — both leaves clustered with id 0 and probability `4/5`. -/
theorem no_validation_counterexample :
    cfgBad.maxDist < cfgBad.minDist
    ∧ runClustering cfgBad treeBad 2 = ([0, 0], [4/5, 4/5]) := by
  constructor <;> with_unfolding_all decide

/-- C7 amended: the scripts never validate the thresholds; an invocation with
`minDistance > maxDistance` proceeds normally and produces complete output —
one cluster id and one probability per item. -/
theorem no_validation_full_output (c : Cfg) (t : MergeTree) (n : Nat)
    (_h : c.maxDist < c.minDist) :
    (runClustering c t n).1.length = n ∧ (runClustering c t n).2.length = n := by
  unfold runClustering
  refine ⟨?_, ?_⟩
  · rw [(applyWrites_length _ _ _).1]
    simp [initClusters]
  · rw [(applyWrites_length _ _ _).2]
    simp [initProbs]

/-- Witness for the amended C7 theorem at the concrete swapped thresholds. -/
theorem no_validation_full_output_witness :
    (runClustering cfgBad treeBad 2).1.length = 2
    ∧ (runClustering cfgBad treeBad 2).2.length = 2 :=
  no_validation_full_output cfgBad treeBad 2 (by with_unfolding_all decide)

/-!  ### First-discovery order of cluster ids -/

/-- A nonempty constant list deduplicates to its single value. -/
theorem dedupFirst_const (a : Int) :
    ∀ xs : List Int, xs ≠ [] → (∀ x ∈ xs, x = a) → dedupFirst xs = [a] := by
  intro xs
  match xs with
  | [] => intro h _; exact absurd rfl h
  | x :: rest =>
    intro _ hall
    have hx : x = a := hall x (List.mem_cons_self x rest)
    have hfil : rest.filter (fun y => y ≠ x) = [] := by
      rw [List.filter_eq_nil_iff]
      intro y hy
      have hy2 : y = a := hall y (List.mem_cons_of_mem x hy)
      simp [hy2, hx]
    rw [dedupFirst, hfil, dedupFirst, hx]

/-- Deduplication distributes over append when the second part is disjoint
from the first. -/
theorem dedupFirst_append_aux (b : List Int) :
    ∀ (k : Nat) (a : List Int), a.length ≤ k → (∀ x ∈ b, x ∉ a) →
      dedupFirst (a ++ b) = dedupFirst a ++ dedupFirst b := by
  intro k
  induction k with
  | zero =>
    intro a ha _
    have h0 : a = [] := List.eq_nil_of_length_eq_zero (Nat.le_zero.mp ha)
    subst h0
    simp [dedupFirst]
  | succ k ih =>
    intro a ha hb
    match a with
    | [] => simp [dedupFirst]
    | x :: a2 =>
      rw [List.cons_append, dedupFirst, dedupFirst, List.filter_append]
      have hbf : b.filter (fun y => y ≠ x) = b := by
        rw [List.filter_eq_self]
        intro y hy
        simp only [ne_eq, decide_eq_true_eq]
        exact fun he => hb y hy (he ▸ List.mem_cons_self x a2)
      rw [hbf]
      rw [ih (a2.filter (fun y => y ≠ x))
        (le_trans (List.length_filter_le _ _) (Nat.succ_le_succ_iff.mp ha))
        (fun y hy hmem => hb y hy (List.mem_cons_of_mem x (List.mem_of_mem_filter hmem)))]
      simp

/-- Deduplication distributes over append of disjoint parts. -/
theorem dedupFirst_append (a b : List Int) (h : ∀ x ∈ b, x ∉ a) :
    dedupFirst (a ++ b) = dedupFirst a ++ dedupFirst b :=
  dedupFirst_append_aux b a.length a (le_refl _) h

/-- Starting unclustered at counter `idx`, the non-`-1` cluster ids appear in
the assignment sequence in first-discovery order `idx, idx + 1, ...` up to the
final counter value: ids are 0-based (from the root call), sequential, and
ordered by first encounter. -/
theorem traverse_discovered (c : Cfg) (t : MergeTree) :
    ∀ (idx : Nat) (pr : ℚ),
      discoveredIds (traverse c t idx (-1) pr).2
        = (List.range' idx ((traverse c t idx (-1) pr).1 - idx)).map Int.ofNat := by
  induction t with
  | leaf i =>
    intro idx pr
    simp [discoveredIds, traverse, dedupFirst]
  | node d l r ihl ihr =>
    intro idx pr
    by_cases hcut : d ≤ criteria c (.node d l r)
    · rw [traverse_cut c d l r idx pr hcut]
      dsimp only
      unfold discoveredIds
      rw [List.map_map]
      have hconst : (leaves (.node d l r)).map
            ((fun w : Nat × Int × ℚ => w.2.1) ∘ (fun i => (i, (idx : Int), max (1 - d) 0)))
          = (leaves (.node d l r)).map (fun _ => (idx : Int)) :=
        List.map_congr_left (fun a _ => rfl)
      rw [hconst, List.map_const']
      have hfil : (List.replicate (leaves (.node d l r)).length (idx : Int)).filter
            (fun x => x ≠ -1)
          = List.replicate (leaves (.node d l r)).length (idx : Int) := by
        rw [List.filter_eq_self]
        intro a ha
        have ha2 := List.eq_of_mem_replicate ha
        simp [ha2]
      rw [hfil]
      have hlen : 0 < (leaves (.node d l r)).length := leaves_length_pos _
      rw [dedupFirst_const (idx : Int) _
        (List.ne_nil_of_length_pos (by simpa using hlen))
        (fun x hx => List.eq_of_mem_replicate hx)]
      have hsub : idx + 1 - idx = 1 := by omega
      rw [hsub]
      rfl
    · simp only [traverse]
      rw [if_neg (fun hc => hcut hc.2)]
      dsimp only
      have hm1 := traverse_mono c l idx (-1) pr
      have hm2 := traverse_mono c r (traverse c l idx (-1) pr).1 (-1) pr
      have hdisj : ∀ x ∈ ((traverse c r (traverse c l idx (-1) pr).1 (-1) pr).2.map
            (fun w => w.2.1)).filter (fun x => x ≠ -1),
          x ∉ ((traverse c l idx (-1) pr).2.map (fun w => w.2.1)).filter
            (fun x => x ≠ -1) := by
        intro x hx hmem
        obtain ⟨hx1, hx2⟩ := List.mem_filter.mp hx
        obtain ⟨hy1, hy2⟩ := List.mem_filter.mp hmem
        simp only [ne_eq, decide_eq_true_eq] at hx2 hy2
        obtain ⟨w2, hw2, hwx2⟩ := List.mem_map.mp hx1
        obtain ⟨w1, hw1, hwx1⟩ := List.mem_map.mp hy1
        rcases traverse_id_mem c r _ _ _ w2 hw2 with h | h
        · exact hx2 (by rw [← hwx2, h])
        · rcases traverse_id_mem c l _ _ _ w1 hw1 with h' | h'
          · exact hy2 (by rw [← hwx1, h'])
          · rw [hwx2] at h
            rw [hwx1] at h'
            omega
      have happ : discoveredIds ((traverse c l idx (-1) pr).2
            ++ (traverse c r (traverse c l idx (-1) pr).1 (-1) pr).2)
          = discoveredIds (traverse c l idx (-1) pr).2
            ++ discoveredIds (traverse c r (traverse c l idx (-1) pr).1 (-1) pr).2 := by
        unfold discoveredIds
        rw [List.map_append, List.filter_append]
        exact dedupFirst_append _ _ hdisj
      rw [happ, ihl idx pr, ihr (traverse c l idx (-1) pr).1 pr]
      rw [← List.map_append]
      have hglue : List.range' idx ((traverse c l idx (-1) pr).1 - idx)
            ++ List.range' (traverse c l idx (-1) pr).1
                ((traverse c r (traverse c l idx (-1) pr).1 (-1) pr).1
                  - (traverse c l idx (-1) pr).1)
          = List.range' idx
              ((traverse c r (traverse c l idx (-1) pr).1 (-1) pr).1 - idx) := by
        have h := List.range'_append idx ((traverse c l idx (-1) pr).1 - idx)
          ((traverse c r (traverse c l idx (-1) pr).1 (-1) pr).1
            - (traverse c l idx (-1) pr).1) 1
        rw [show idx + 1 * ((traverse c l idx (-1) pr).1 - idx)
            = (traverse c l idx (-1) pr).1 by omega] at h
        rw [show ((traverse c r (traverse c l idx (-1) pr).1 (-1) pr).1
              - (traverse c l idx (-1) pr).1) + ((traverse c l idx (-1) pr).1 - idx)
            = (traverse c r (traverse c l idx (-1) pr).1 (-1) pr).1 - idx by omega] at h
        exact h
      rw [hglue]

/-- Every id allocated during an unclustered traversal is handed to at least
two leaves: a cut happens only at an internal node, and both children
contribute at least one leaf each. -/
theorem traverse_count_two (c : Cfg) (t : MergeTree) :
    ∀ (idx : Nat) (pr : ℚ) (k : Nat), idx ≤ k → k < (traverse c t idx (-1) pr).1 →
      2 ≤ ((traverse c t idx (-1) pr).2.map (fun w => w.2.1)).count (k : Int) := by
  induction t with
  | leaf i =>
    intro idx pr k h1 h2
    simp only [traverse] at h2
    omega
  | node d l r ihl ihr =>
    intro idx pr k h1 h2
    by_cases hcut : d ≤ criteria c (.node d l r)
    · rw [traverse_cut c d l r idx pr hcut] at h2 ⊢
      dsimp only at h2 ⊢
      have hk : k = idx := by omega
      subst hk
      rw [List.map_map]
      have hconst : (leaves (.node d l r)).map
            ((fun w : Nat × Int × ℚ => w.2.1) ∘ (fun i => (i, (k : Int), max (1 - d) 0)))
          = (leaves (.node d l r)).map (fun _ => (k : Int)) :=
        List.map_congr_left (fun a _ => rfl)
      rw [hconst, List.map_const', List.count_replicate_self]
      have hl := leaves_length_pos l
      have hr := leaves_length_pos r
      simp only [leaves, List.length_append]
      omega
    · simp only [traverse] at h2 ⊢
      rw [if_neg (fun hc => hcut hc.2)] at h2 ⊢
      dsimp only at h2 ⊢
      rw [List.map_append, List.count_append]
      by_cases hk : k < (traverse c l idx (-1) pr).1
      · have := ihl idx pr k h1 hk
        omega
      · have := ihr (traverse c l idx (-1) pr).1 pr k (le_of_not_lt hk) h2
        omega

/-- A leaf the `unclusteredLeaf` predicate accepts lies under the tree. -/
theorem unclusteredLeaf_mem (c : Cfg) :
    ∀ (t : MergeTree) (i : Nat), unclusteredLeaf c t i = true → i ∈ leaves t := by
  intro t
  induction t with
  | leaf j =>
    intro i h
    simp only [unclusteredLeaf, beq_iff_eq] at h
    simp [leaves, h]
  | node d l r ihl ihr =>
    intro i h
    simp only [unclusteredLeaf, Bool.and_eq_true, Bool.or_eq_true] at h
    rcases h.2 with h2 | h2
    · exact List.mem_append_left _ (ihl i h2)
    · exact List.mem_append_right _ (ihr i h2)

/-- Starting unclustered, a leaf's assignment is `-1` exactly when no node on
the path from the root to that leaf satisfies the cut criteria. -/
theorem traverse_unclustered_iff (c : Cfg) (t : MergeTree)
    (hnd : (leaves t).Nodup) :
    ∀ (idx : Nat) (pr : ℚ) (i : Nat) (cl : Int) (p2 : ℚ),
      (i, cl, p2) ∈ (traverse c t idx (-1) pr).2 →
      (cl = -1 ↔ unclusteredLeaf c t i = true) := by
  induction t with
  | leaf j =>
    intro idx pr i cl p2 hmem
    simp only [traverse, List.mem_singleton, Prod.mk.injEq] at hmem
    obtain ⟨hij, hcl, _⟩ := hmem
    subst hij
    subst hcl
    simp [unclusteredLeaf]
  | node d l r ihl ihr =>
    intro idx pr i cl p2 hmem
    have hnd2 : (leaves l ++ leaves r).Nodup := hnd
    rw [List.nodup_append] at hnd2
    obtain ⟨hndl, hndr, hdisj⟩ := hnd2
    by_cases hcut : d ≤ criteria c (.node d l r)
    · rw [traverse_cut c d l r idx pr hcut] at hmem
      dsimp only at hmem
      obtain ⟨i0, _, heq⟩ := List.mem_map.mp hmem
      have hcl : cl = (idx : Int) := by
        have := congrArg (fun w : Nat × Int × ℚ => w.2.1) heq
        simpa using this.symm
      constructor
      · intro hc
        rw [hcl] at hc
        omega
      · intro hu
        simp only [unclusteredLeaf, Bool.and_eq_true, Bool.not_eq_true',
          decide_eq_false_iff_not] at hu
        exact absurd hcut hu.1
    · simp only [traverse] at hmem
      rw [if_neg (fun hc => hcut hc.2)] at hmem
      dsimp only at hmem
      have hul : unclusteredLeaf c (.node d l r) i
          = (unclusteredLeaf c l i || unclusteredLeaf c r i) := by
        simp only [unclusteredLeaf]
        simp [hcut]
      rcases List.mem_append.mp hmem with h1 | h1
      · have hiff := ihl hndl idx pr i cl p2 h1
        have hil : i ∈ leaves l := by
          have hfst := traverse_fst_map c l idx (-1) pr
          rw [← hfst]
          exact List.mem_map_of_mem (fun w => w.1) h1
        have hnr : unclusteredLeaf c r i = false := by
          cases hx : unclusteredLeaf c r i
          · rfl
          · exact absurd (unclusteredLeaf_mem c r i hx) (hdisj hil)
        rw [hul, hnr]
        simpa using hiff
      · have hiff := ihr hndr (traverse c l idx (-1) pr).1 pr i cl p2 h1
        have hir : i ∈ leaves r := by
          have hfst := traverse_fst_map c r (traverse c l idx (-1) pr).1 (-1) pr
          rw [← hfst]
          exact List.mem_map_of_mem (fun w => w.1) h1
        have hnl : unclusteredLeaf c l i = false := by
          cases hx : unclusteredLeaf c l i
          · rfl
          · exact absurd hir (hdisj (unclusteredLeaf_mem c l i hx))
        rw [hul, hnl]
        simpa using hiff

/-!  ### From the assignment sequence to the output arrays -/

/-- An index never written keeps its initial array entries. -/
theorem applyWrites_getElem_not_mem :
    ∀ (ws : List (Nat × Int × ℚ)) (cs : List Int) (ps : List ℚ) (i : Nat),
      i ∉ ws.map (fun w => w.1) →
      (applyWrites ws cs ps).1[i]? = cs[i]?
      ∧ (applyWrites ws cs ps).2[i]? = ps[i]? := by
  intro ws
  induction ws with
  | nil => intro cs ps i _; exact ⟨rfl, rfl⟩
  | cons w rest ih =>
    intro cs ps i hi
    obtain ⟨j, cl, pr⟩ := w
    simp only [List.map_cons, List.mem_cons, not_or] at hi
    simp only [applyWrites]
    obtain ⟨h1, h2⟩ := ih (cs.set j cl) (ps.set j pr) i hi.2
    rw [h1, h2, List.getElem?_set_ne (Ne.symm hi.1), List.getElem?_set_ne (Ne.symm hi.1)]
    exact ⟨rfl, rfl⟩

/-- With pairwise-distinct written indices, each written index ends up holding
exactly its recorded cluster id and probability. -/
theorem applyWrites_getElem :
    ∀ (ws : List (Nat × Int × ℚ)) (cs : List Int) (ps : List ℚ)
      (i : Nat) (cl : Int) (pr : ℚ),
      (ws.map (fun w => w.1)).Nodup → (i, cl, pr) ∈ ws →
      i < cs.length → i < ps.length →
      (applyWrites ws cs ps).1[i]? = some cl
      ∧ (applyWrites ws cs ps).2[i]? = some pr := by
  intro ws
  induction ws with
  | nil => intro cs ps i cl pr _ hmem _ _; cases hmem
  | cons w rest ih =>
    intro cs ps i cl pr hnd hmem hc hp
    obtain ⟨j, cl0, pr0⟩ := w
    simp only [List.map_cons, List.nodup_cons] at hnd
    simp only [applyWrites]
    rcases List.mem_cons.mp hmem with heq | hmem2
    · have hh : i = j ∧ cl = cl0 ∧ pr = pr0 := by
        have := heq
        simp only [Prod.mk.injEq] at this
        exact this
      obtain ⟨rfl, rfl, rfl⟩ := hh
      obtain ⟨e1, e2⟩ := applyWrites_getElem_not_mem rest (cs.set i cl) (ps.set i pr) i hnd.1
      rw [e1, e2, List.getElem?_set_self hc, List.getElem?_set_self hp]
      exact ⟨rfl, rfl⟩
    · exact ih (cs.set j cl0) (ps.set j pr0) i cl pr hnd.2 hmem2
        (by simpa using hc) (by simpa using hp)

/-- `lookupCl` recovers the recorded id of a written leaf. -/
theorem lookupCl_eq :
    ∀ (ws : List (Nat × Int × ℚ)) (i : Nat) (cl : Int) (pr : ℚ),
      (ws.map (fun w => w.1)).Nodup → (i, cl, pr) ∈ ws → lookupCl ws i = cl := by
  intro ws
  induction ws with
  | nil => intro i cl pr _ h; cases h
  | cons w rest ih =>
    intro i cl pr hnd hmem
    obtain ⟨j, cl0, pr0⟩ := w
    simp only [List.map_cons, List.nodup_cons] at hnd
    rcases List.mem_cons.mp hmem with heq | hmem2
    · have hh : i = j ∧ cl = cl0 ∧ pr = pr0 := by
        have := heq
        simp only [Prod.mk.injEq] at this
        exact this
      obtain ⟨rfl, rfl, rfl⟩ := hh
      unfold lookupCl
      simp [List.find?_cons]
    · have hif : i ∈ rest.map (fun w => w.1) :=
        List.mem_map_of_mem (fun w => w.1) hmem2
      have hji : (j == i) = false := by
        rw [beq_eq_false_iff_ne]
        intro he
        exact hnd.1 (he ▸ hif)
      unfold lookupCl
      rw [List.find?_cons]
      simp only [hji]
      exact ih i cl pr hnd.2 hmem2

/-- `lookupCl` is `-1` on unwritten leaves. -/
theorem lookupCl_not_mem :
    ∀ (ws : List (Nat × Int × ℚ)) (i : Nat),
      i ∉ ws.map (fun w => w.1) → lookupCl ws i = -1 := by
  intro ws
  induction ws with
  | nil => intro i _; rfl
  | cons w rest ih =>
    intro i hi
    obtain ⟨j, cl0, pr0⟩ := w
    simp only [List.map_cons, List.mem_cons, not_or] at hi
    have hji : (j == i) = false := by
      rw [beq_eq_false_iff_ne]
      exact fun he => hi.1 he.symm
    unfold lookupCl
    rw [List.find?_cons]
    simp only [hji]
    exact ih i hi.2

/-- The populated cluster array is the leaf-indexed readout of the assignment
sequence. -/
theorem runClustering_fst_eq (c : Cfg) (t : MergeTree) (n : Nat)
    (hp : (leaves t).Perm (List.range n)) :
    (runClustering c t n).1
      = (List.range n).map (fun i => lookupCl (traverse c t 0 (-1) 1).2 i) := by
  have hfst : (traverse c t 0 (-1) 1).2.map (fun w => w.1) = leaves t :=
    traverse_fst_map c t 0 (-1) 1
  have hnd : ((traverse c t 0 (-1) 1).2.map (fun w => w.1)).Nodup := by
    rw [hfst]
    exact hp.nodup_iff.mpr (List.nodup_range n)
  apply List.ext_getElem?
  intro i
  by_cases hin : i < n
  · rw [List.getElem?_map, List.getElem?_range hin]
    simp only [Option.map_some']
    by_cases hmem : i ∈ (traverse c t 0 (-1) 1).2.map (fun w => w.1)
    · obtain ⟨w, hw, hwi⟩ := List.mem_map.mp hmem
      obtain ⟨i0, cl, pr⟩ := w
      simp only at hwi
      subst hwi
      unfold runClustering
      rw [(applyWrites_getElem _ _ _ i0 cl pr hnd hw
        (by simpa [initClusters] using hin) (by simpa [initProbs] using hin)).1]
      rw [lookupCl_eq _ i0 cl pr hnd hw]
    · unfold runClustering
      rw [(applyWrites_getElem_not_mem _ _ _ i hmem).1, lookupCl_not_mem _ i hmem]
      simp [initClusters, List.getElem?_replicate, hin]
  · have hlen1 : (runClustering c t n).1.length = n := by
      unfold runClustering
      rw [(applyWrites_length _ _ _).1]
      simp [initClusters]
    rw [List.getElem?_eq_none (by omega), List.getElem?_eq_none (by simp; omega)]

/-- The populated cluster array is a permutation of the ids of the assignment
sequence. -/
theorem runClustering_fst_perm (c : Cfg) (t : MergeTree) (n : Nat)
    (hp : (leaves t).Perm (List.range n)) :
    ((runClustering c t n).1).Perm
      ((traverse c t 0 (-1) 1).2.map (fun w => w.2.1)) := by
  have hfst : (traverse c t 0 (-1) 1).2.map (fun w => w.1) = leaves t :=
    traverse_fst_map c t 0 (-1) 1
  have hnd : ((traverse c t 0 (-1) 1).2.map (fun w => w.1)).Nodup := by
    rw [hfst]
    exact hp.nodup_iff.mpr (List.nodup_range n)
  rw [runClustering_fst_eq c t n hp]
  have hmap : (traverse c t 0 (-1) 1).2.map (fun w => w.2.1)
      = ((traverse c t 0 (-1) 1).2.map (fun w => w.1)).map
          (fun i => lookupCl (traverse c t 0 (-1) 1).2 i) := by
    rw [List.map_map]
    apply List.map_congr_left
    intro w hw
    exact (lookupCl_eq _ w.1 w.2.1 w.2.2 hnd (by simpa using hw)).symm
  rw [hmap, hfst]
  exact ((hp.map _)).symm

/-- C8: cluster ids are 0-based and sequential in first-discovery order of
the pre-order, left-child-first traversal (the ids met in the assignment
sequence, deduplicated to first occurrences, are exactly `0, 1, ..., K-1` for
the final counter value `K`); the two output arrays are indexed by the items'
original 0-based ids with no renumbering or reordering (entry `i` holds
exactly leaf `i`'s assigned id and probability); and a leaf's id is `-1`
exactly when no node on its root path satisfies the cut criteria. -/
theorem output_first_discovery_and_indexing (c : Cfg) (t : MergeTree) (n : Nat)
    (hp : (leaves t).Perm (List.range n)) :
    discoveredIds (traverse c t 0 (-1) 1).2
        = (List.range (traverse c t 0 (-1) 1).1).map Int.ofNat
    ∧ (∀ (i : Nat) (cl : Int) (pr : ℚ), (i, cl, pr) ∈ (traverse c t 0 (-1) 1).2 →
        (runClustering c t n).1[i]? = some cl
        ∧ (runClustering c t n).2[i]? = some pr)
    ∧ (∀ (i : Nat) (cl : Int) (pr : ℚ), (i, cl, pr) ∈ (traverse c t 0 (-1) 1).2 →
        (cl = -1 ↔ unclusteredLeaf c t i = true)) := by
  have hfst : (traverse c t 0 (-1) 1).2.map (fun w => w.1) = leaves t :=
    traverse_fst_map c t 0 (-1) 1
  have hndl : (leaves t).Nodup := hp.nodup_iff.mpr (List.nodup_range n)
  have hnd : ((traverse c t 0 (-1) 1).2.map (fun w => w.1)).Nodup := by
    rw [hfst]; exact hndl
  refine ⟨?_, ?_, ?_⟩
  · have := traverse_discovered c t 0 1
    rw [this, List.range_eq_range', Nat.sub_zero]
  · intro i cl pr hmem
    have hi : i < n := by
      have h1 : i ∈ leaves t := by
        rw [← hfst]
        exact List.mem_map_of_mem (fun w => w.1) hmem
      exact List.mem_range.mp (hp.mem_iff.mp h1)
    unfold runClustering
    exact applyWrites_getElem _ _ _ i cl pr hnd hmem
      (by simpa [initClusters] using hi) (by simpa [initProbs] using hi)
  · intro i cl pr hmem
    exact traverse_unclustered_iff c t hndl 0 1 i cl pr hmem

/-- Witness for C8 on the concrete run: leaf 0 of `treeW` is recorded at
array index 0 with cluster id 0 and probability `9/10`. -/
theorem output_first_discovery_and_indexing_witness :
    (runClustering cfgW treeW 2).1[0]? = some 0
    ∧ (runClustering cfgW treeW 2).2[0]? = some (9/10) :=
  (output_first_discovery_and_indexing cfgW treeW 2
    (by with_unfolding_all decide)).2.1 0 0 (9/10) (by with_unfolding_all decide)

/-- C10: in the final output the non-negative cluster ids are exactly the
contiguous range `{0, ..., K-1}` for the number `K` of cuts performed, and
every non-negative id is held by at least two items — cuts happen only at
internal nodes, whose two subtrees each contribute at least one leaf. -/
theorem cluster_ids_contiguous_min_two (c : Cfg) (t : MergeTree) (n : Nat)
    (hp : (leaves t).Perm (List.range n)) :
    (∀ k : Nat, ((k : Int) ∈ (runClustering c t n).1 ↔ k < (traverse c t 0 (-1) 1).1))
    ∧ ∀ k : Nat, k < (traverse c t 0 (-1) 1).1 →
        2 ≤ (runClustering c t n).1.count (k : Int) := by
  have hperm := runClustering_fst_perm c t n hp
  constructor
  · intro k
    rw [hperm.mem_iff]
    constructor
    · intro hk
      obtain ⟨w, hw, hwk⟩ := List.mem_map.mp hk
      rcases traverse_id_mem c t 0 (-1) 1 w hw with h | h
      · rw [hwk] at h
        omega
      · rw [hwk] at h
        omega
    · intro hk
      have h2 := traverse_count_two c t 0 1 k (Nat.zero_le k) hk
      exact List.count_pos_iff.mp (by omega)
  · intro k hk
    rw [hperm.count_eq]
    exact traverse_count_two c t 0 1 k (Nat.zero_le k) hk

/-- Witness for C10 on the concrete run: cluster id 0 covers both items. -/
theorem cluster_ids_contiguous_min_two_witness :
    2 ≤ (runClustering cfgW treeW 2).1.count (0 : Int) :=
  (cluster_ids_contiguous_min_two cfgW treeW 2 (by with_unfolding_all decide)).2
    0 (by with_unfolding_all decide)

end CHAIR
